import Mathlib

/-!
Verification of the accounting core of the mintbase-core token registry
(`store/src/minting.rs`, `store/src/payout.rs`,
`mintbase-deps/src/common/owner.rs`).

The three Rust files above are embedded shallowly: persistent NEAR
collections become association lists, `u64`/`u128` quantities become `Nat`
(the claims under study are about formula structure and exact sums, not
machine-width wraparound), and a Rust `assert!`/`panic!` becomes an
explicit `StepResult.err` carrying both the error signal and the state of
the persistent structures at the instant of the panic (the NEAR host
discards that state, so the externally observable state after a panic is
the pre-call state; keeping the panic-time state lets us reason about
write ordering).

Types whose definitions live outside the three provided files
(`Owner`'s `TokenKey` payload, `Royalty`, `SplitOwners`,
`OwnershipFractions`, `Token::new`, the `MAX_LEN_PAYOUT` constant, the
`is_loaned` / `is_pred_owner` / `assert_store_owner` helpers) are modelled
from the specification; each such definition says so in its doc comment.
-/

/-- Modelled from the spec: the cross-registry token key carried by the
`CrossKey` owner variant (a registry/asset pair); its definition is not in
the provided sources. -/
structure TokenKey where
  token_id : Nat
  account_id : String
deriving DecidableEq

/-- Modelled from the spec: rendering of a cross-registry key as its
underlying identifier string. -/
def TokenKey.toStr (k : TokenKey) : String :=
  toString k.token_id ++ ":" ++ k.account_id

/-- The `Owner` enum of `mintbase-deps/src/common/owner.rs`. -/
inductive Owner where
  | Account (a : String)
  | TokenId (n : Nat)
  | CrossKey (k : TokenKey)
  | Lock (a : String)
deriving DecidableEq

/-- Errors signalled by panics / failed assertions in the embedded code,
named as in the spec taxonomy. -/
inductive Err where
  | invalidFractions
  | invalidSplit
  | alreadySplit
  | locked
  | notOwner
  | payoutTooLong
  | insufficientFunds (need : Nat)
  | notMinter
  | noDeposit
  | countOutOfRange
  | composedOwnerPayout
  | noToken
  | notStoreOwner
  | cannotRevokeOwner
  | emptyTokenIds
  | missingRoyalty
  | lockedOwnerRender
deriving DecidableEq

/-- The `Display` impl for `Owner` (`owner.rs` lines 28-40): `Account`,
`TokenId` and `CrossKey` render as their underlying identifier; rendering a
`Lock` owner panics (modelled as an error value). -/
def Owner.fmt : Owner → Except Err String
  | .Account s => .ok s
  | .TokenId n => .ok (toString n)
  | .CrossKey k => .ok (TokenKey.toStr k)
  | .Lock _ => .error .lockedOwnerRender

/-- Modelled from the spec: `MAX_LEN_PAYOUT` from `mintbase-deps`
constants (the doc comment of `nft_batch_mint` states the maximum royalty
map length is 50). -/
def MAX_LEN_PAYOUT : Nat := 50

/-- Modelled from the spec: the fraction basis, parts-per-10000. -/
def FRACTION_BASE : Nat := 10000

/-- Modelled from the spec: a validated one-shot split map, beneficiary to
relative share (parts-per-10000). -/
structure SplitOwners where
  split_between : List (String × Nat)
deriving DecidableEq

/-- Modelled from the spec: a validated royalty record, beneficiary to
relative share (parts-per-10000) plus the overall royalty percentage taken
off the top of each sale. -/
structure Royalty where
  split_between : List (String × Nat)
  percentage : Nat
deriving DecidableEq

/-- The raw arguments to royalty creation (unvalidated). -/
structure RoyaltyArgs where
  split_between : List (String × Nat)
  percentage : Nat
deriving DecidableEq

/-- Modelled from the spec: `Royalty::new` validates non-empty, every
share positive, shares summing exactly to the whole, and entry count at
most `MAX_LEN_PAYOUT`, failing with `InvalidFractions` otherwise. -/
def Royalty.new (args : RoyaltyArgs) : Except Err Royalty :=
  if args.split_between.isEmpty then .error .invalidFractions
  else if args.split_between.any (fun p => p.2 = 0) then .error .invalidFractions
  else if (args.split_between.map (fun p => p.2)).sum ≠ FRACTION_BASE then .error .invalidFractions
  else if FRACTION_BASE < args.percentage then .error .invalidFractions
  else if MAX_LEN_PAYOUT < args.split_between.length then .error .invalidFractions
  else .ok ⟨args.split_between, args.percentage⟩

/-- Modelled from the spec: `SplitOwners::new` performs the same
share-sum/count validation and additionally requires at least two entries,
failing with `InvalidSplit` otherwise. -/
def SplitOwners.new (sb : List (String × Nat)) : Except Err SplitOwners :=
  if sb.length < 2 then .error .invalidSplit
  else if sb.any (fun p => p.2 = 0) then .error .invalidSplit
  else if (sb.map (fun p => p.2)).sum ≠ FRACTION_BASE then .error .invalidSplit
  else if MAX_LEN_PAYOUT < sb.length then .error .invalidSplit
  else .ok ⟨sb⟩

/-- The persistent `Token` record (fields used by the embedded code). -/
structure Token where
  id : Nat
  owner_id : Owner
  metadata_id : Nat
  royalty_id : Option Nat
  split_owners : Option SplitOwners
  minter : String
deriving DecidableEq

/-- Modelled from the spec: `Token::new` builds a token directly owned by
`owner`, referencing the batch lookup id, the optional shared royalty id,
a per-token copy of the validated splits, and the minter for provenance. -/
def Token.new (owner : String) (token_id lookup_id : Nat)
    (royalty_id : Option Nat) (split : Option SplitOwners)
    (minter : String) : Token :=
  ⟨token_id, .Account owner, lookup_id, royalty_id, split, minter⟩

/-- Modelled from the spec: `is_loaned` holds when the owner is in the
temporary `Lock` state pending a cross-registry callback. -/
def Token.is_loaned (t : Token) : Bool :=
  match t.owner_id with
  | .Lock _ => true
  | _ => false

/-- Modelled from the spec: `is_pred_owner` holds when the caller is the
current direct `Account` owner of the token. -/
def Token.is_pred_owner (caller : String) (t : Token) : Bool :=
  match t.owner_id with
  | .Account a => a = caller
  | _ => false

/-- The `StorageCosts` configuration (price per byte, fixed per-record
cost `common`, fixed per-token cost `token`). -/
structure StorageCosts where
  storage_price_per_byte : Nat
  common : Nat
  token : Nat
deriving DecidableEq

/-- Association-list lookup used to model the NEAR persistent maps:
the first binding of a key wins, matching insert-by-prepend. -/
def alookup {κ α : Type} [DecidableEq κ] (m : List (κ × α)) (k : κ) : Option α :=
  match m with
  | [] => none
  | (k2, v) :: rest => if k2 = k then some v else alookup rest k

/-- The persistent state of `MintbaseStore` (the fields touched by the
embedded methods). -/
structure MintbaseStore where
  tokens : List (Nat × Token)
  tokens_minted : Nat
  token_royalty : List (Nat × (Nat × Royalty))
  token_metadata : List (Nat × (Nat × Nat))
  tokens_per_owner : List (String × List Nat)
  minters : List String
  owner_id : String
  storage_costs : StorageCosts
deriving DecidableEq

/-- The host environment values read by the embedded methods. -/
structure Env where
  predecessor : String
  attached_deposit : Nat
  account_balance : Nat
  storage_usage : Nat
deriving DecidableEq

/-- Result of a state-mutating method: `ok` with the new state, or `err`
with the panic signal and the state of the persistent structures at the
instant of the panic (which the NEAR host then discards). -/
inductive StepResult where
  | ok (s : MintbaseStore)
  | err (e : Err) (s : MintbaseStore)
deriving DecidableEq

/-- Events emitted to the log sink. -/
inductive LogEvent where
  | grantMinter (a : String)
  | revokeMinter (a : String)
  | nftBatchMint (firstId lastId : Nat)
  | setSplitOwners (ids : List Nat)
deriving DecidableEq

/-- Adds `v` to the amount stored under key `k` in a payout map, creating
the entry when absent (the result map has unique keys when built this
way from an empty accumulator). -/
def payoutAdd (m : List (String × Nat)) (k : String) (v : Nat) : List (String × Nat) :=
  match m with
  | [] => [(k, v)]
  | (k2, v2) :: rest => if k2 = k then (k2, v2 + v) :: rest else (k2, v2) :: payoutAdd rest k v

/-- The amount a payout map assigns to a key (0 when absent). -/
def amountOf (m : List (String × Nat)) (k : String) : Nat :=
  (alookup m k).getD 0

/-- Total amount distributed by a payout map. -/
def payoutSum (m : List (String × Nat)) : Nat :=
  (m.map (fun p => p.2)).sum

/-- Modelled from the spec: the absolute royalty amounts, one per royalty
entry, each `floor(balance * share)` where the effective share of an entry
is the overall royalty percentage times its relative share. -/
def royAmounts (roy : Option Royalty) (balance : Nat) : List (String × Nat) :=
  match roy with
  | some r => r.split_between.map
      (fun p => (p.1, balance * r.percentage * p.2 / (FRACTION_BASE * FRACTION_BASE)))
  | none => []

/-- Modelled from the spec: the absolute split amounts, each
`floor(remaining * share)` computed against the balance remaining after
the royalty deduction. -/
def splitAmounts (splits : Option SplitOwners) (remaining : Nat) : List (String × Nat) :=
  match splits with
  | some sp => sp.split_between.map (fun p => (p.1, remaining * p.2 / FRACTION_BASE))
  | none => []

/-- All non-owner amounts: royalties off the top, then splits over the
remaining balance. -/
def allAmounts (roy : Option Royalty) (splits : Option SplitOwners) (balance : Nat) :
    List (String × Nat) :=
  royAmounts roy balance ++ splitAmounts splits (balance - payoutSum (royAmounts roy balance))

/-- The direct owner's residual: `balance` minus the sum of all other
amounts; it absorbs every unit of rounding loss. -/
def residualAmt (roy : Option Royalty) (splits : Option SplitOwners) (balance : Nat) : Nat :=
  balance - payoutSum (allAmounts roy splits balance)

/-- Modelled from the spec: `OwnershipFractions::new` followed by
`into_payout` — merge the royalty amounts, the split amounts and the
owner's residual into one map with unique keys (amounts for a repeated
address are summed; a zero residual adds no owner entry). -/
def intoPayout (ownerKey : String) (roy : Option Royalty) (splits : Option SplitOwners)
    (balance : Nat) : List (String × Nat) :=
  let base := (allAmounts roy splits balance).foldl (fun m p => payoutAdd m p.1 p.2) []
  let residual := residualAmt roy splits balance
  if residual = 0 then base else payoutAdd base ownerKey residual

/-- `get_token_royalty` (`payout.rs` lines 128-137): follow the token's
optional royalty id into the shared royalty map. -/
def get_token_royalty (s : MintbaseStore) (token_id : Nat) : Option Royalty :=
  match alookup s.tokens token_id with
  | some tok =>
      match tok.royalty_id with
      | some rid => (alookup s.token_royalty rid).map (fun p => p.2)
      | none => none
  | none => none

/-- `nft_payout` (`payout.rs` lines 46-68): look the token up, require a
direct `Account` owner (else panic "token is composed"), build the payout
from the shared royalty and the per-token splits, and reject results
longer than the caller-supplied `max_len_payout`. -/
def nft_payout (s : MintbaseStore) (token_id balance max_len_payout : Nat) :
    Except Err (List (String × Nat)) :=
  match alookup s.tokens token_id with
  | none => .error .noToken
  | some token =>
      match token.owner_id with
      | .Account a =>
          let payout := intoPayout a (get_token_royalty s token_id) token.split_owners balance
          if max_len_payout < payout.length then .error .payoutTooLong
          else .ok payout
      | _ => .error .composedOwnerPayout

/-- `storage_cost_to_mint` (`minting.rs` lines 201-216): one per-record
fee for the owner-set entry, the metadata bytes at the per-byte price, one
per-record fee per royalty entry, and per token a fixed token fee plus one
per-record fee per split entry. -/
def storage_cost_to_mint (c : StorageCosts) (num_tokens metadata_storage num_royalties num_splits : Nat) : Nat :=
  c.common
    + metadata_storage * c.storage_price_per_byte
    + num_royalties * c.common
    + num_tokens * (c.token + num_splits * c.common)

/-- The cost estimate exactly as the spec words it: one fixed per-record
fee, plus `metadata_size * price_per_byte`, plus
`num_royalty_entries * fixed_record_fee`, plus
`num_tokens * (fixed_per_token_fee + num_split_entries * fixed_record_fee)`. -/
def estimate_mint_cost (c : StorageCosts) (num_tokens metadata_size num_royalty_entries num_split_entries : Nat) : Nat :=
  c.common
    + metadata_size * c.storage_price_per_byte
    + num_royalty_entries * c.common
    + num_tokens * (c.token + num_split_entries * c.common)

/-- The token-creation loop of `nft_batch_mint` (`minting.rs` lines
112-124): for each fresh id, insert the new token into the tokens map
(insert-by-prepend models the NEAR map insert). -/
def mintLoop (ids : List Nat) (mk : Nat → Token) (m : List (Nat × Token)) : List (Nat × Token) :=
  match ids with
  | [] => m
  | tid :: rest => mintLoop rest mk ((tid, mk tid) :: m)

/-- The anticipated royalty entry count of a mint request (0 when no
royalty is supplied), `minting.rs` lines 67-73. -/
def mintRoyLen (royalty_args : Option RoyaltyArgs) : Nat :=
  (royalty_args.map (fun a => a.split_between.length)).getD 0

/-- The anticipated split entry count of a mint request (defaulting to 1
for the bare owner when no split map is supplied), `minting.rs` lines
74-81. -/
def mintSplitLen (split_owners : Option (List (String × Nat))) : Nat :=
  (split_owners.map (fun l => l.length)).getD 1

/-- The caller's covered funds: account balance minus the storage already
committed, `minting.rs` lines 64-65. -/
def coveredStorage (env : Env) (s : MintbaseStore) : Nat :=
  env.account_balance - env.storage_usage * s.storage_costs.storage_price_per_byte

/-- The write phase of `nft_batch_mint` (`minting.rs` lines 95-127),
reached only after every validation has passed: store the shared royalty
(if any) and metadata under the batch lookup id, create the
`num_to_mint` tokens at contiguous fresh ids, advance the counter, and
record the new ids under the owner's index. -/
def mintWrites (pred : String) (s : MintbaseStore) (owner_id : String)
    (md_size num_to_mint : Nat) (checked_royalty : Option Royalty)
    (checked_split : Option SplitOwners) : MintbaseStore :=
  let owned0 := (alookup s.tokens_per_owner owner_id).getD []
  let lookup_id := s.tokens_minted
  let royalty_id := checked_royalty.map (fun _ => lookup_id)
  let s1 := { s with token_royalty :=
    match checked_royalty with
    | some r => (lookup_id, (num_to_mint, r)) :: s.token_royalty
    | none => s.token_royalty }
  let s2 := { s1 with token_metadata := (lookup_id, (num_to_mint, md_size)) :: s1.token_metadata }
  let newIds := (List.range num_to_mint).map (fun i => s.tokens_minted + i)
  let mk := fun tid => Token.new owner_id tid lookup_id royalty_id checked_split pred
  let s3 := { s2 with tokens := mintLoop newIds mk s2.tokens }
  { s3 with tokens_minted := s.tokens_minted + num_to_mint,
            tokens_per_owner := (owner_id, owned0 ++ newIds) :: s3.tokens_per_owner }

/-- `nft_batch_mint` (`minting.rs` lines 44-139): count/deposit/minter
checks, the payout-length check, the storage admission check, royalty and
split validation — all before any write — then the write phase
`mintWrites`. -/
def nft_batch_mint (env : Env) (s : MintbaseStore) (owner_id : String)
    (md_size num_to_mint : Nat) (royalty_args : Option RoyaltyArgs)
    (split_owners : Option (List (String × Nat))) : StepResult :=
  if num_to_mint = 0 then .err .countOutOfRange s
  else if 125 < num_to_mint then .err .countOutOfRange s
  else if env.attached_deposit < 1 then .err .noDeposit s
  else if env.predecessor ∉ s.minters then .err .notMinter s
  else if MAX_LEN_PAYOUT < mintRoyLen royalty_args + mintSplitLen split_owners then
    .err .payoutTooLong s
  else if coveredStorage env s < storage_cost_to_mint s.storage_costs num_to_mint md_size
      (mintRoyLen royalty_args) (mintSplitLen split_owners) then
    .err (.insufficientFunds (storage_cost_to_mint s.storage_costs num_to_mint md_size
      (mintRoyLen royalty_args) (mintSplitLen split_owners))) s
  else
    match royalty_args with
    | some ra =>
        match Royalty.new ra with
        | .error e => .err e s
        | .ok r =>
            match split_owners with
            | some sb =>
                match SplitOwners.new sb with
                | .error e => .err e s
                | .ok sp =>
                    .ok (mintWrites env.predecessor s owner_id md_size num_to_mint (some r) (some sp))
            | none => .ok (mintWrites env.predecessor s owner_id md_size num_to_mint (some r) none)
    | none =>
        match split_owners with
        | some sb =>
            match SplitOwners.new sb with
            | .error e => .err e s
            | .ok sp =>
                .ok (mintWrites env.predecessor s owner_id md_size num_to_mint none (some sp))
        | none => .ok (mintWrites env.predecessor s owner_id md_size num_to_mint none none)

/-- The per-token loop of `set_split_owners` (`payout.rs` lines 100-119):
each token is checked (exists, not loaned, caller is owner, not already
split, combined payout length within bound) and then immediately
rewritten with the splits attached — validation of later tokens happens
after earlier tokens were written. -/
def setSplitLoop (caller : String) (splits : SplitOwners) (ids : List Nat)
    (s : MintbaseStore) : StepResult :=
  match ids with
  | [] => .ok s
  | tid :: rest =>
      match alookup s.tokens tid with
      | none => .err .noToken s
      | some token =>
          if token.is_loaned then .err .locked s
          else if ¬ Token.is_pred_owner caller token then .err .notOwner s
          else if token.split_owners.isSome then .err .alreadySplit s
          else
            match token.royalty_id with
            | some rid =>
                match alookup s.token_royalty rid with
                | none => .err .missingRoyalty s
                | some pr =>
                    if MAX_LEN_PAYOUT < splits.split_between.length + pr.2.split_between.length
                    then .err .payoutTooLong s
                    else setSplitLoop caller splits rest
                      { s with tokens := (tid, { token with split_owners := some splits }) :: s.tokens }
            | none =>
                if MAX_LEN_PAYOUT < splits.split_between.length + 0
                then .err .payoutTooLong s
                else setSplitLoop caller splits rest
                  { s with tokens := (tid, { token with split_owners := some splits }) :: s.tokens }

/-- `set_split_owners` (`payout.rs` lines 84-121): non-empty id list,
split map of at least two entries, storage deposit check and split
validation up front, then the per-token check-and-write loop. -/
def set_split_owners (env : Env) (s : MintbaseStore) (token_ids : List Nat)
    (split_between : List (String × Nat)) : StepResult :=
  if token_ids.isEmpty then .err .emptyTokenIds s
  else if split_between.length < 2 then .err .invalidSplit s
  else
    let storage_cost := s.storage_costs.common * split_between.length * token_ids.length
    if env.attached_deposit < storage_cost then .err (.insufficientFunds storage_cost) s
    else
      match SplitOwners.new split_between with
      | .error e => .err e s
      | .ok splits => setSplitLoop env.predecessor splits token_ids s

/-- `grant_minter` (`minting.rs` lines 148-158): store-owner only; the
set insert does nothing and logs nothing when the account is already a
minter. -/
def grant_minter (env : Env) (s : MintbaseStore) (account_id : String) :
    StepResult × List LogEvent :=
  if env.predecessor ≠ s.owner_id then (.err .notStoreOwner s, [])
  else if account_id ∈ s.minters then (.ok s, [])
  else (.ok { s with minters := s.minters ++ [account_id] }, [.grantMinter account_id])

/-- `list_minters` (`minting.rs` lines 191-193). -/
def list_minters (s : MintbaseStore) : List String :=
  s.minters

/-- Validity of a stored royalty record: relative shares sum to the whole
and the overall percentage is at most the whole (established by
`Royalty.new`). -/
def Royalty.validB (r : Royalty) : Bool :=
  ((r.split_between.map (fun p => p.2)).sum == FRACTION_BASE)
    && Nat.ble r.percentage FRACTION_BASE

/-- Validity of a stored split map: relative shares sum to the whole
(established by `SplitOwners.new`). -/
def SplitOwners.validB (sp : SplitOwners) : Bool :=
  (sp.split_between.map (fun p => p.2)).sum == FRACTION_BASE

/-- Total amount a list of (address, amount) pairs contributes to one key. -/
def sumTo (l : List (String × Nat)) (k : String) : Nat :=
  ((l.filter (fun p => p.1 == k)).map (fun p => p.2)).sum

lemma payoutAdd_sum (m : List (String × Nat)) (k : String) (v : Nat) :
    payoutSum (payoutAdd m k v) = payoutSum m + v := by
  induction m with
  | nil => simp [payoutAdd, payoutSum]
  | cons hd tl ih =>
      obtain ⟨k2, v2⟩ := hd
      by_cases h : k2 = k <;> simp [payoutAdd, payoutSum, h] at * <;> omega

lemma payoutFold_sum (l m : List (String × Nat)) :
    payoutSum (l.foldl (fun m p => payoutAdd m p.1 p.2) m) = payoutSum m + payoutSum l := by
  induction l generalizing m with
  | nil => simp [payoutSum]
  | cons hd tl ih =>
      rw [List.foldl_cons, ih, payoutAdd_sum]
      simp [payoutSum]
      omega

lemma payoutAdd_amount_self (m : List (String × Nat)) (k : String) (v : Nat) :
    amountOf (payoutAdd m k v) k = amountOf m k + v := by
  induction m with
  | nil => simp [payoutAdd, amountOf, alookup]
  | cons hd tl ih =>
      obtain ⟨k2, v2⟩ := hd
      by_cases h : k2 = k <;> simp [payoutAdd, amountOf, alookup, h] at *
      exact ih

lemma payoutAdd_amount_ne (m : List (String × Nat)) (k v : _) (k2 : String) (h : k ≠ k2) :
    amountOf (payoutAdd m k v) k2 = amountOf m k2 := by
  induction m with
  | nil => simp [payoutAdd, amountOf, alookup, h]
  | cons hd tl ih =>
      obtain ⟨k3, v3⟩ := hd
      by_cases h3 : k3 = k
      · subst h3
        simp [payoutAdd, amountOf, alookup, h]
      · simp only [payoutAdd, amountOf, alookup, h3, if_false]
        by_cases h4 : k3 = k2 <;> simp [amountOf, alookup, h4]
        exact ih

lemma payoutFold_amount (l : List (String × Nat)) (m : List (String × Nat)) (k : String) :
    amountOf (l.foldl (fun m p => payoutAdd m p.1 p.2) m) k = amountOf m k + sumTo l k := by
  induction l generalizing m with
  | nil => simp [sumTo]
  | cons hd tl ih =>
      obtain ⟨k1, v1⟩ := hd
      by_cases h : k1 = k
      · subst h
        simp [List.foldl, ih, sumTo, payoutAdd_amount_self]
        omega
      · simp [List.foldl, ih, sumTo, h, payoutAdd_amount_ne _ _ _ _ h]

lemma div_add_div_le (a b d : Nat) : a / d + b / d ≤ (a + b) / d := by
  rcases Nat.eq_zero_or_pos d with h | h
  · subst h; simp
  · rw [Nat.le_div_iff_mul_le h, Nat.add_mul]
    exact Nat.add_le_add (Nat.div_mul_le_self a d) (Nat.div_mul_le_self b d)

lemma sum_map_div_le {α : Type} (l : List α) (g : α → Nat) (d : Nat) :
    (l.map (fun x => g x / d)).sum ≤ (l.map g).sum / d := by
  induction l with
  | nil => simp
  | cons h t ih =>
      simp only [List.map_cons, List.sum_cons]
      calc g h / d + (t.map (fun x => g x / d)).sum ≤ g h / d + (t.map g).sum / d := by
            exact Nat.add_le_add_left ih _
        _ ≤ (g h + (t.map g).sum) / d := div_add_div_le _ _ _

lemma sum_map_mul_snd (l : List (String × Nat)) (c : Nat) :
    (l.map (fun p => c * p.2)).sum = c * (l.map (fun p => p.2)).sum := by
  induction l with
  | nil => simp
  | cons h t ih => simp [ih, Nat.mul_add]

lemma royAmounts_sum_le (roy : Option Royalty) (bal : Nat)
    (h : Option.all Royalty.validB roy = true) :
    payoutSum (royAmounts roy bal) ≤ bal := by
  cases roy with
  | none => simp [royAmounts, payoutSum]
  | some r =>
      simp only [Option.all, Royalty.validB, Bool.and_eq_true, beq_iff_eq, Nat.ble_eq] at h
      obtain ⟨hsum, hperc⟩ := h
      have h1 : payoutSum (royAmounts (some r) bal)
          = (r.split_between.map
              (fun p => bal * r.percentage * p.2 / (FRACTION_BASE * FRACTION_BASE))).sum := by
        simp only [royAmounts, payoutSum, List.map_map]
        rfl
      rw [h1]
      calc (r.split_between.map
              (fun p => bal * r.percentage * p.2 / (FRACTION_BASE * FRACTION_BASE))).sum
          ≤ (r.split_between.map (fun p => bal * r.percentage * p.2)).sum
              / (FRACTION_BASE * FRACTION_BASE) := sum_map_div_le _ _ _
        _ = (bal * r.percentage * FRACTION_BASE) / (FRACTION_BASE * FRACTION_BASE) := by
              rw [sum_map_mul_snd, hsum]
        _ ≤ (bal * (FRACTION_BASE * FRACTION_BASE)) / (FRACTION_BASE * FRACTION_BASE) := by
              apply Nat.div_le_div_right
              calc bal * r.percentage * FRACTION_BASE
                  = bal * (r.percentage * FRACTION_BASE) := by ring
                _ ≤ bal * (FRACTION_BASE * FRACTION_BASE) := by
                      exact Nat.mul_le_mul_left _ (Nat.mul_le_mul_right _ hperc)
        _ = bal := by
              apply Nat.mul_div_cancel
              simp [FRACTION_BASE]
  
lemma splitAmounts_sum_le (sp : Option SplitOwners) (rem : Nat)
    (h : Option.all SplitOwners.validB sp = true) :
    payoutSum (splitAmounts sp rem) ≤ rem := by
  cases sp with
  | none => simp [splitAmounts, payoutSum]
  | some x =>
      simp only [Option.all, SplitOwners.validB, beq_iff_eq] at h
      have h1 : payoutSum (splitAmounts (some x) rem)
          = (x.split_between.map (fun p => rem * p.2 / FRACTION_BASE)).sum := by
        simp only [splitAmounts, payoutSum, List.map_map]
        rfl
      rw [h1]
      calc (x.split_between.map (fun p => rem * p.2 / FRACTION_BASE)).sum
          ≤ (x.split_between.map (fun p => rem * p.2)).sum / FRACTION_BASE :=
            sum_map_div_le _ _ _
        _ = (rem * FRACTION_BASE) / FRACTION_BASE := by rw [sum_map_mul_snd, h]
        _ = rem := by
              apply Nat.mul_div_cancel
              simp [FRACTION_BASE]

lemma allAmounts_sum_le (roy : Option Royalty) (sp : Option SplitOwners) (bal : Nat)
    (hroy : Option.all Royalty.validB roy = true)
    (hsp : Option.all SplitOwners.validB sp = true) :
    payoutSum (allAmounts roy sp bal) ≤ bal := by
  have h1 : payoutSum (allAmounts roy sp bal)
      = payoutSum (royAmounts roy bal)
        + payoutSum (splitAmounts sp (bal - payoutSum (royAmounts roy bal))) := by
    simp [allAmounts, payoutSum]
  have h2 := royAmounts_sum_le roy bal hroy
  have h3 := splitAmounts_sum_le sp (bal - payoutSum (royAmounts roy bal)) hsp
  omega

lemma intoPayout_sum (a : String) (roy : Option Royalty) (sp : Option SplitOwners) (bal : Nat)
    (hroy : Option.all Royalty.validB roy = true)
    (hsp : Option.all SplitOwners.validB sp = true) :
    payoutSum (intoPayout a roy sp bal) = bal := by
  have hle := allAmounts_sum_le roy sp bal hroy hsp
  have h0 : payoutSum ([] : List (String × Nat)) = 0 := rfl
  simp only [intoPayout, residualAmt]
  by_cases h : bal - payoutSum (allAmounts roy sp bal) = 0
  · rw [if_pos h, payoutFold_sum]
    omega
  · rw [if_neg h, payoutAdd_sum, payoutFold_sum]
    omega

lemma intoPayout_amount_owner (a : String) (roy : Option Royalty) (sp : Option SplitOwners)
    (bal : Nat) :
    amountOf (intoPayout a roy sp bal) a
      = residualAmt roy sp bal + sumTo (allAmounts roy sp bal) a := by
  have h0 : amountOf ([] : List (String × Nat)) a = 0 := rfl
  simp only [intoPayout, residualAmt]
  by_cases h : bal - payoutSum (allAmounts roy sp bal) = 0
  · rw [if_pos h, payoutFold_amount]
    omega
  · rw [if_neg h, payoutAdd_amount_self, payoutFold_amount]
    omega

/-- C1: for every token whose owner is `Account(a)` and every balance, a
successful `nft_payout` returns amounts summing exactly to `balance`
(any balance, including 0 and values not divisible by the share counts),
and the address `a` receives exactly the rounding residual
`balance - Σ(all other amounts)` on top of any amounts it is owed as a
royalty or split beneficiary. -/
theorem claim1_payout_sum_exact
    (s : MintbaseStore) (tid bal maxlen : Nat) (tok : Token) (a : String)
    (p : List (String × Nat))
    (htok : alookup s.tokens tid = some tok)
    (hown : tok.owner_id = .Account a)
    (hroy : Option.all Royalty.validB (get_token_royalty s tid) = true)
    (hsp : Option.all SplitOwners.validB tok.split_owners = true)
    (hok : nft_payout s tid bal maxlen = .ok p) :
    payoutSum p = bal ∧
    amountOf p a = residualAmt (get_token_royalty s tid) tok.split_owners bal
      + sumTo (allAmounts (get_token_royalty s tid) tok.split_owners bal) a := by
  have hp : p = intoPayout a (get_token_royalty s tid) tok.split_owners bal := by
    simp only [nft_payout, htok, hown] at hok
    by_cases hlen : maxlen < (intoPayout a (get_token_royalty s tid) tok.split_owners bal).length
    · rw [if_pos hlen] at hok
      cases hok
    · rw [if_neg hlen] at hok
      exact (Except.ok.inj hok).symm
  subst hp
  exact ⟨intoPayout_sum a _ _ bal hroy hsp, intoPayout_amount_owner a _ _ bal⟩

/-- One-shot split between carol and dave used by the witness states. -/
def wSplit1 : SplitOwners := ⟨[("carol", 5000), ("dave", 5000)]⟩

/-- A valid royalty giving bob 10% off the top. -/
def wRoy1 : Royalty := ⟨[("bob", 10000)], 1000⟩

/-- A token owned directly by alice, referencing royalty record 0 and
carrying the carol/dave split. -/
def wTok1 : Token := ⟨0, .Account "alice", 0, some 0, some wSplit1, "minter"⟩

/-- A small concrete store holding `wTok1`. -/
def wStore1 : MintbaseStore :=
  ⟨[(0, wTok1)], 1, [(0, (1, wRoy1))], [(0, (1, 0))], [("alice", [0])],
   ["minter"], "boss", ⟨1, 1, 1⟩⟩

/-- The payout `nft_payout wStore1 0 1000 3` produces. -/
def wPayout1 : List (String × Nat) := [("bob", 100), ("carol", 450), ("dave", 450)]

theorem claim1_payout_sum_exact_witness :
    payoutSum wPayout1 = 1000 ∧
    amountOf wPayout1 "alice"
      = residualAmt (get_token_royalty wStore1 0) wTok1.split_owners 1000
        + sumTo (allAmounts (get_token_royalty wStore1 0) wTok1.split_owners 1000) "alice" :=
  claim1_payout_sum_exact wStore1 0 1000 3 wTok1 "alice" wPayout1 rfl rfl
    (by decide) (by decide) rfl

/-- C3: the mint cost estimate of `storage_cost_to_mint` equals exactly
the fee formula the spec gives for `estimate_mint_cost`: one fixed
per-record fee, plus metadata bytes at the per-byte price, plus one
per-record fee per royalty entry, plus per token the fixed token fee and
one per-record fee per split entry. -/
theorem claim3_storage_cost_formula (c : StorageCosts)
    (num_tokens metadata_size num_royalty_entries num_split_entries : Nat) :
    storage_cost_to_mint c num_tokens metadata_size num_royalty_entries num_split_entries
      = estimate_mint_cost c num_tokens metadata_size num_royalty_entries num_split_entries :=
  rfl

/-- C9: rendering an `Owner` as a payout key yields the underlying
account id for `Account`, the underlying asset id for `TokenId`
(ComposedLocal), and the underlying registry/asset key for `CrossKey`
(ComposedForeign), while rendering a `Lock` owner always fails and never
silently produces a key. -/
theorem claim9_owner_render :
    (∀ a, Owner.fmt (.Account a) = .ok a) ∧
    (∀ n, Owner.fmt (.TokenId n) = .ok (toString n)) ∧
    (∀ k, Owner.fmt (.CrossKey k) = .ok (TokenKey.toStr k)) ∧
    (∀ a, Owner.fmt (.Lock a) = .error .lockedOwnerRender) :=
  ⟨fun _ => rfl, fun _ => rfl, fun _ => rfl, fun _ => rfl⟩

lemma royaltyNew_error_shape (args : RoyaltyArgs) (e : Err)
    (h : Royalty.new args = .error e) : e = .invalidFractions := by
  unfold Royalty.new at h
  repeat' split at h
  all_goals first
    | (exact (Except.error.inj h).symm)
    | (cases h)

lemma splitOwnersNew_error_shape (sb : List (String × Nat)) (e : Err)
    (h : SplitOwners.new sb = .error e) : e = .invalidSplit := by
  unfold SplitOwners.new at h
  repeat' split at h
  all_goals first
    | (exact (Except.error.inj h).symm)
    | (cases h)

/-- C7: `nft_payout` on a token whose owner is any non-`Account` variant
(`TokenId`/ComposedLocal, `CrossKey`/ComposedForeign, or `Lock`/Locked)
fails with the composed-owner signal and returns no payout. -/
theorem claim7_composed_owner_no_payout
    (s : MintbaseStore) (tid bal maxlen : Nat) (tok : Token)
    (htok : alookup s.tokens tid = some tok)
    (hown : ∀ a, tok.owner_id ≠ .Account a) :
    nft_payout s tid bal maxlen = .error .composedOwnerPayout := by
  cases h : tok.owner_id with
  | Account a => exact absurd h (hown a)
  | TokenId n => simp only [nft_payout, htok, h]
  | CrossKey k => simp only [nft_payout, htok, h]
  | Lock a => simp only [nft_payout, htok, h]

/-- A token whose owner is another token of this registry (compose). -/
def wTok2 : Token := ⟨1, .TokenId 7, 0, none, none, "minter"⟩

/-- A store holding the composed-owned token `wTok2`. -/
def wStore2 : MintbaseStore :=
  ⟨[(1, wTok2)], 2, [], [], [], ["minter"], "boss", ⟨1, 1, 1⟩⟩

theorem claim7_composed_owner_no_payout_witness :
    nft_payout wStore2 1 500 10 = .error .composedOwnerPayout :=
  claim7_composed_owner_no_payout wStore2 1 500 10 wTok2 rfl
    (fun _ h => Owner.noConfusion h)

/-- C10: `grant_minter` on an account that is already a minter returns
the store unchanged and emits no grant event, and a successful
`grant_minter` never introduces a duplicate into `list_minters`. -/
theorem claim10_grant_minter_idempotent
    (env : Env) (s : MintbaseStore) (a : String)
    (howner : env.predecessor = s.owner_id)
    (hmem : a ∈ s.minters)
    (hnodup : (list_minters s).Nodup) :
    grant_minter env s a = (.ok s, []) ∧
    (∀ b s2 lg, grant_minter env s b = (.ok s2, lg) → (list_minters s2).Nodup) := by
  constructor
  · simp [grant_minter, howner, hmem]
  · intro b s2 lg h
    unfold grant_minter at h
    rw [if_neg (by simp [howner])] at h
    by_cases hb : b ∈ s.minters
    · rw [if_pos hb] at h
      obtain ⟨h1, -⟩ := Prod.mk.injEq .. ▸ h
      cases h1
      exact hnodup
    · rw [if_neg hb] at h
      obtain ⟨h1, -⟩ := Prod.mk.injEq .. ▸ h
      cases h1
      simp only [list_minters] at hnodup ⊢
      simp [List.nodup_append, hnodup, hb]

/-- A host environment where the store owner is the caller. -/
def wEnv1 : Env := ⟨"boss", 1, 1000000, 0⟩

theorem claim10_grant_minter_idempotent_witness :
    grant_minter wEnv1 wStore1 "minter" = (.ok wStore1, []) ∧
    (∀ b s2 lg, grant_minter wEnv1 wStore1 b = (.ok s2, lg) → (list_minters s2).Nodup) :=
  claim10_grant_minter_idempotent wEnv1 wStore1 "minter" rfl (by decide) (by decide)

/-- C5: under the preceding count/deposit/minter/length checks, batch
minting fails with `InsufficientFunds` — reporting the required amount and
with every persistent structure untouched — exactly when the covered
funds are strictly below the computed cost estimate; when the covered
funds reach the estimate, no `InsufficientFunds` failure is possible. -/
theorem claim5_admission_iff
    (env : Env) (s : MintbaseStore) (owner : String) (md n : Nat)
    (royalty_args : Option RoyaltyArgs) (split_owners : Option (List (String × Nat)))
    (hn0 : 0 < n) (hn1 : n ≤ 125) (hdep : 1 ≤ env.attached_deposit)
    (hminter : env.predecessor ∈ s.minters)
    (hlen : mintRoyLen royalty_args + mintSplitLen split_owners ≤ MAX_LEN_PAYOUT) :
    (coveredStorage env s < storage_cost_to_mint s.storage_costs n md
        (mintRoyLen royalty_args) (mintSplitLen split_owners) →
      nft_batch_mint env s owner md n royalty_args split_owners
        = .err (.insufficientFunds (storage_cost_to_mint s.storage_costs n md
            (mintRoyLen royalty_args) (mintSplitLen split_owners))) s) ∧
    (storage_cost_to_mint s.storage_costs n md
        (mintRoyLen royalty_args) (mintSplitLen split_owners) ≤ coveredStorage env s →
      ∀ m s2, nft_batch_mint env s owner md n royalty_args split_owners
        ≠ .err (.insufficientFunds m) s2) := by
  constructor
  · intro hc
    unfold nft_batch_mint
    rw [if_neg (by omega), if_neg (by omega), if_neg (by omega),
        if_neg (not_not_intro hminter), if_neg (by omega), if_pos hc]
  · intro hc m s2 h
    unfold nft_batch_mint at h
    rw [if_neg (by omega), if_neg (by omega), if_neg (by omega),
        if_neg (not_not_intro hminter), if_neg (by omega), if_neg (by omega)] at h
    repeat' split at h
    all_goals first
      | exact StepResult.noConfusion h
      | (injection h with h1 h2
         subst h1
         rename_i heq
         first
           | exact Err.noConfusion (royaltyNew_error_shape _ _ heq)
           | exact Err.noConfusion (splitOwnersNew_error_shape _ _ heq))

/-- A host environment where a registered minter is the caller. -/
def wEnv2 : Env := ⟨"minter", 1, 1000000, 0⟩

theorem claim5_admission_iff_witness :
    (coveredStorage wEnv2 wStore1 < storage_cost_to_mint wStore1.storage_costs 2 10
        (mintRoyLen none) (mintSplitLen none) →
      nft_batch_mint wEnv2 wStore1 "alice" 10 2 none none
        = .err (.insufficientFunds (storage_cost_to_mint wStore1.storage_costs 2 10
            (mintRoyLen none) (mintSplitLen none))) wStore1) ∧
    (storage_cost_to_mint wStore1.storage_costs 2 10
        (mintRoyLen none) (mintSplitLen none) ≤ coveredStorage wEnv2 wStore1 →
      ∀ m s2, nft_batch_mint wEnv2 wStore1 "alice" 10 2 none none
        ≠ .err (.insufficientFunds m) s2) :=
  claim5_admission_iff wEnv2 wStore1 "alice" 10 2 none none
    (by decide) (by decide) (by decide) (by decide) (by decide)

lemma mintLoop_lookup_not_mem (ids : List Nat) (mk : Nat → Token) (m : List (Nat × Token))
    (tid : Nat) (h : tid ∉ ids) :
    alookup (mintLoop ids mk m) tid = alookup m tid := by
  induction ids generalizing m with
  | nil => rfl
  | cons a rest ih =>
      have ha : tid ≠ a := fun hc => h (hc ▸ List.mem_cons_self a rest)
      have hr : tid ∉ rest := fun hc => h (List.mem_cons_of_mem a hc)
      rw [mintLoop, ih _ hr]
      simp only [alookup]
      rw [if_neg (Ne.symm ha)]

lemma mintLoop_lookup_mem (ids : List Nat) (mk : Nat → Token) (m : List (Nat × Token))
    (tid : Nat) (h : tid ∈ ids) :
    alookup (mintLoop ids mk m) tid = some (mk tid) := by
  induction ids generalizing m with
  | nil => cases h
  | cons a rest ih =>
      by_cases hr : tid ∈ rest
      · exact ih _ hr
      · have ha : tid = a := by
          rcases List.mem_cons.mp h with h1 | h1
          · exact h1
          · exact absurd h1 hr
        subst ha
        rw [mintLoop, mintLoop_lookup_not_mem rest mk _ tid hr]
        simp [alookup]

lemma mem_rangeIds (tm n tid : Nat) :
    tid ∈ (List.range n).map (fun i => tm + i) ↔ tm ≤ tid ∧ tid < tm + n := by
  simp only [List.mem_map, List.mem_range]
  constructor
  · rintro ⟨i, hi, rfl⟩
    omega
  · intro hb
    exact ⟨tid - tm, by omega, by omega⟩

lemma mintWrites_spec (pred : String) (s : MintbaseStore) (owner : String)
    (md n : Nat) (cr : Option Royalty) (cs : Option SplitOwners)
    (hfresh : ∀ tid tok, alookup s.tokens tid = some tok → tid < s.tokens_minted) :
    (mintWrites pred s owner md n cr cs).tokens_minted = s.tokens_minted + n ∧
    (∀ i, i < n → ∃ tok, alookup (mintWrites pred s owner md n cr cs).tokens
        (s.tokens_minted + i) = some tok ∧ tok.owner_id = .Account owner) ∧
    (∀ i, i < n → alookup s.tokens (s.tokens_minted + i) = none) ∧
    (∀ tid, alookup (mintWrites pred s owner md n cr cs).tokens tid ≠ alookup s.tokens tid →
        s.tokens_minted ≤ tid ∧ tid < s.tokens_minted + n) ∧
    (∃ ids, alookup (mintWrites pred s owner md n cr cs).tokens_per_owner owner = some ids ∧
        ∀ i, i < n → (s.tokens_minted + i) ∈ ids) := by
  have htoks : (mintWrites pred s owner md n cr cs).tokens
      = mintLoop ((List.range n).map (fun i => s.tokens_minted + i))
          (fun tid => Token.new owner tid s.tokens_minted
            (cr.map (fun _ => s.tokens_minted)) cs pred) s.tokens := by
    cases cr <;> rfl
  have hcnt : (mintWrites pred s owner md n cr cs).tokens_minted = s.tokens_minted + n := by
    cases cr <;> rfl
  have howned : (mintWrites pred s owner md n cr cs).tokens_per_owner
      = (owner, (alookup s.tokens_per_owner owner).getD []
          ++ (List.range n).map (fun i => s.tokens_minted + i)) :: s.tokens_per_owner := by
    cases cr <;> rfl
  refine ⟨hcnt, ?_, ?_, ?_, ?_⟩
  · intro i hi
    have hmem : (s.tokens_minted + i) ∈ (List.range n).map (fun j => s.tokens_minted + j) := by
      rw [mem_rangeIds]
      omega
    refine ⟨Token.new owner (s.tokens_minted + i) s.tokens_minted
      (cr.map (fun _ => s.tokens_minted)) cs pred, ?_, rfl⟩
    rw [htoks, mintLoop_lookup_mem _ _ _ _ hmem]
  · intro i hi
    cases hl : alookup s.tokens (s.tokens_minted + i) with
    | none => rfl
    | some tok =>
        have := hfresh _ _ hl
        omega
  · intro tid hne
    by_contra hout
    apply hne
    rw [htoks, mintLoop_lookup_not_mem]
    rw [mem_rangeIds]
    omega
  · refine ⟨(alookup s.tokens_per_owner owner).getD []
        ++ (List.range n).map (fun i => s.tokens_minted + i), ?_, ?_⟩
    · rw [howned]
      simp [alookup]
    · intro i hi
      apply List.mem_append_right
      rw [mem_rangeIds]
      omega

/-- C4: a successful batch mint of `n` tokens advances the running id
counter by exactly `n`, creates tokens at exactly the contiguous id range
starting at the old counter value (each owned by the requested owner),
those ids were previously unused, no other id's token record changes, and
every new id is recorded under the owner's index. -/
theorem claim4_mint_contiguous
    (env : Env) (s : MintbaseStore) (owner : String) (md n : Nat)
    (royalty_args : Option RoyaltyArgs) (split_owners : Option (List (String × Nat)))
    (s2 : MintbaseStore)
    (hfresh : ∀ tid tok, alookup s.tokens tid = some tok → tid < s.tokens_minted)
    (hok : nft_batch_mint env s owner md n royalty_args split_owners = .ok s2) :
    s2.tokens_minted = s.tokens_minted + n ∧
    (∀ i, i < n → ∃ tok, alookup s2.tokens (s.tokens_minted + i) = some tok ∧
        tok.owner_id = .Account owner) ∧
    (∀ i, i < n → alookup s.tokens (s.tokens_minted + i) = none) ∧
    (∀ tid, alookup s2.tokens tid ≠ alookup s.tokens tid →
        s.tokens_minted ≤ tid ∧ tid < s.tokens_minted + n) ∧
    (∃ ids, alookup s2.tokens_per_owner owner = some ids ∧
        ∀ i, i < n → (s.tokens_minted + i) ∈ ids) := by
  unfold nft_batch_mint at hok
  repeat' split at hok
  all_goals first
    | exact StepResult.noConfusion hok
    | (have hs2 := StepResult.ok.inj hok
       subst hs2
       exact mintWrites_spec _ _ _ _ _ _ _ hfresh)

theorem claim4_mint_contiguous_witness :
    (mintWrites "minter" wStore1 "alice" 10 1 none none).tokens_minted
      = wStore1.tokens_minted + 1 ∧
    (∀ i, i < 1 → ∃ tok, alookup (mintWrites "minter" wStore1 "alice" 10 1 none none).tokens
        (wStore1.tokens_minted + i) = some tok ∧ tok.owner_id = .Account "alice") ∧
    (∀ i, i < 1 → alookup wStore1.tokens (wStore1.tokens_minted + i) = none) ∧
    (∀ tid, alookup (mintWrites "minter" wStore1 "alice" 10 1 none none).tokens tid
        ≠ alookup wStore1.tokens tid →
        wStore1.tokens_minted ≤ tid ∧ tid < wStore1.tokens_minted + 1) ∧
    (∃ ids, alookup (mintWrites "minter" wStore1 "alice" 10 1 none none).tokens_per_owner "alice"
        = some ids ∧ ∀ i, i < 1 → (wStore1.tokens_minted + i) ∈ ids) :=
  claim4_mint_contiguous wEnv2 wStore1 "alice" 10 1 none none
    (mintWrites "minter" wStore1 "alice" 10 1 none none)
    (fun tid tok h => by
      by_cases h0 : (0 : Nat) = tid
      · have h1 : wStore1.tokens_minted = 1 := rfl
        omega
      · have hh : alookup wStore1.tokens tid = none := by
          simp [wStore1, alookup, h0]
        rw [hh] at h
        cases h)
    rfl

lemma splitOwnersNew_ok_len (sb : List (String × Nat)) (splits : SplitOwners)
    (h : SplitOwners.new sb = .ok splits) : 2 ≤ sb.length := by
  unfold SplitOwners.new at h
  by_cases h2 : sb.length < 2
  · rw [if_pos h2] at h
    cases h
  · omega

/-- C8: `set_split_owners` on a targeted token fails with `InvalidSplit`
when the split map has fewer than two entries, with `Locked` when the
token's owner is in the locked state, with `NotOwner` when the caller is
not the current account owner, and with `AlreadySplit` when the token's
split field is already set — in every case returning the store exactly as
it was, so the existing split data (and everything else) is unchanged. -/
theorem claim8_set_split_rejections
    (env : Env) (s : MintbaseStore) (tid : Nat) (sb : List (String × Nat))
    (tok : Token) (splits : SplitOwners)
    (htok : alookup s.tokens tid = some tok)
    (hdep : s.storage_costs.common * sb.length * [tid].length ≤ env.attached_deposit)
    (hnew : SplitOwners.new sb = .ok splits) :
    (∀ sb2 : List (String × Nat), sb2.length < 2 →
        set_split_owners env s [tid] sb2 = .err .invalidSplit s) ∧
    (tok.is_loaned = true → set_split_owners env s [tid] sb = .err .locked s) ∧
    (tok.is_loaned = false → Token.is_pred_owner env.predecessor tok = false →
        set_split_owners env s [tid] sb = .err .notOwner s) ∧
    (tok.is_loaned = false → Token.is_pred_owner env.predecessor tok = true →
        tok.split_owners.isSome = true →
        set_split_owners env s [tid] sb = .err .alreadySplit s) := by
  have hlen2 := splitOwnersNew_ok_len sb splits hnew
  have hpre : set_split_owners env s [tid] sb = setSplitLoop env.predecessor splits [tid] s := by
    simp only [set_split_owners]
    rw [if_neg (by simp), if_neg (by omega), if_neg (Nat.not_lt.mpr hdep), hnew]
  refine ⟨?_, ?_, ?_, ?_⟩
  · intro sb2 hlen
    unfold set_split_owners
    rw [if_neg (by simp), if_pos hlen]
  · intro hl
    rw [hpre]
    simp only [setSplitLoop, htok]
    rw [if_pos hl]
  · intro hl hp
    rw [hpre]
    simp only [setSplitLoop, htok]
    rw [if_neg (by simp [hl]), if_pos (by simp [hp])]
  · intro hl hp hs
    rw [hpre]
    simp only [setSplitLoop, htok]
    rw [if_neg (by simp [hl]), if_neg (by simp [hp]), if_pos hs]

/-- A host environment where alice (the token owner) is the caller with a
large deposit attached. -/
def wEnv3 : Env := ⟨"alice", 1000, 1000000, 0⟩

/-- A fresh two-party split map. -/
def wSbNew : List (String × Nat) := [("x", 5000), ("y", 5000)]

theorem claim8_set_split_rejections_witness :
    (∀ sb2 : List (String × Nat), sb2.length < 2 →
        set_split_owners wEnv3 wStore1 [0] sb2 = .err .invalidSplit wStore1) ∧
    (wTok1.is_loaned = true →
        set_split_owners wEnv3 wStore1 [0] wSbNew = .err .locked wStore1) ∧
    (wTok1.is_loaned = false → Token.is_pred_owner wEnv3.predecessor wTok1 = false →
        set_split_owners wEnv3 wStore1 [0] wSbNew = .err .notOwner wStore1) ∧
    (wTok1.is_loaned = false → Token.is_pred_owner wEnv3.predecessor wTok1 = true →
        wTok1.split_owners.isSome = true →
        set_split_owners wEnv3 wStore1 [0] wSbNew = .err .alreadySplit wStore1) :=
  claim8_set_split_rejections wEnv3 wStore1 0 wSbNew wTok1 ⟨wSbNew⟩ rfl (by decide) rfl

/-- Number of split-owner entries attached to a token. -/
def splitLenOf (tok : Token) : Nat :=
  (tok.split_owners.map (fun sp => sp.split_between.length)).getD 0

/-- Number of royalty entries a token references through the shared
royalty store. -/
def royLenOf (tr : List (Nat × (Nat × Royalty))) (tok : Token) : Nat :=
  ((tok.royalty_id.bind (fun rid => alookup tr rid)).map
    (fun pr => pr.2.split_between.length)).getD 0

/-- The C6 invariant: every stored token's royalty entry count plus
split entry count stays within `MAX_LEN_PAYOUT`. -/
def payoutLenInv (s : MintbaseStore) : Prop :=
  ∀ tid tok, alookup s.tokens tid = some tok →
    royLenOf s.token_royalty tok + splitLenOf tok ≤ MAX_LEN_PAYOUT

lemma royaltyNew_ok_val (args : RoyaltyArgs) (r : Royalty)
    (h : Royalty.new args = .ok r) : r.split_between = args.split_between := by
  unfold Royalty.new at h
  repeat' split at h
  all_goals first
    | exact Except.noConfusion h
    | (injection h with h1
       subst h1
       rfl)

lemma splitOwnersNew_ok_val (sb : List (String × Nat)) (sp : SplitOwners)
    (h : SplitOwners.new sb = .ok sp) : sp.split_between = sb := by
  unfold SplitOwners.new at h
  repeat' split at h
  all_goals first
    | exact Except.noConfusion h
    | (injection h with h1
       subst h1
       rfl)

lemma mintWrites_payoutLenInv (pred : String) (s : MintbaseStore) (owner : String)
    (md n : Nat) (cr : Option Royalty) (cs : Option SplitOwners)
    (hinv : payoutLenInv s)
    (hrid : ∀ tid tok, alookup s.tokens tid = some tok →
        ∀ rid, tok.royalty_id = some rid → rid < s.tokens_minted)
    (hbound : (cr.map (fun r => r.split_between.length)).getD 0
        + (cs.map (fun sp => sp.split_between.length)).getD 0 ≤ MAX_LEN_PAYOUT) :
    payoutLenInv (mintWrites pred s owner md n cr cs) := by
  intro tid tok hlk
  cases cr with
  | none =>
      have htoks : (mintWrites pred s owner md n none cs).tokens
          = mintLoop ((List.range n).map (fun i => s.tokens_minted + i))
              (fun t => Token.new owner t s.tokens_minted none cs pred) s.tokens := rfl
      have htr : (mintWrites pred s owner md n none cs).token_royalty
          = s.token_royalty := rfl
      rw [htoks] at hlk
      rw [htr]
      by_cases hmem : tid ∈ (List.range n).map (fun i => s.tokens_minted + i)
      · rw [mintLoop_lookup_mem _ _ _ _ hmem] at hlk
        have htk : tok = Token.new owner tid s.tokens_minted none cs pred :=
          (Option.some.inj hlk).symm
        subst htk
        have hrl : royLenOf s.token_royalty
            (Token.new owner tid s.tokens_minted none cs pred) = 0 := rfl
        have hsl : splitLenOf (Token.new owner tid s.tokens_minted none cs pred)
            = (cs.map (fun sp => sp.split_between.length)).getD 0 := rfl
        rw [hrl, hsl]
        have hb : (0 : Nat) + (cs.map (fun sp => sp.split_between.length)).getD 0
            ≤ MAX_LEN_PAYOUT := hbound
        omega
      · rw [mintLoop_lookup_not_mem _ _ _ _ hmem] at hlk
        exact hinv tid tok hlk
  | some r =>
      have htoks : (mintWrites pred s owner md n (some r) cs).tokens
          = mintLoop ((List.range n).map (fun i => s.tokens_minted + i))
              (fun t => Token.new owner t s.tokens_minted (some s.tokens_minted) cs pred)
              s.tokens := rfl
      have htr : (mintWrites pred s owner md n (some r) cs).token_royalty
          = (s.tokens_minted, (n, r)) :: s.token_royalty := rfl
      rw [htoks] at hlk
      rw [htr]
      by_cases hmem : tid ∈ (List.range n).map (fun i => s.tokens_minted + i)
      · rw [mintLoop_lookup_mem _ _ _ _ hmem] at hlk
        have htk : tok = Token.new owner tid s.tokens_minted (some s.tokens_minted) cs pred :=
          (Option.some.inj hlk).symm
        subst htk
        have hrl : royLenOf ((s.tokens_minted, (n, r)) :: s.token_royalty)
            (Token.new owner tid s.tokens_minted (some s.tokens_minted) cs pred)
            = r.split_between.length := by
          show ((if s.tokens_minted = s.tokens_minted then some (n, r)
              else alookup s.token_royalty s.tokens_minted).map
                (fun pr => pr.2.split_between.length)).getD 0 = r.split_between.length
          rw [if_pos rfl]
          rfl
        have hsl : splitLenOf (Token.new owner tid s.tokens_minted (some s.tokens_minted) cs pred)
            = (cs.map (fun sp => sp.split_between.length)).getD 0 := rfl
        rw [hrl, hsl]
        have hb : r.split_between.length
            + (cs.map (fun sp => sp.split_between.length)).getD 0 ≤ MAX_LEN_PAYOUT := hbound
        omega
      · rw [mintLoop_lookup_not_mem _ _ _ _ hmem] at hlk
        have h1 := hinv tid tok hlk
        have hrl : royLenOf ((s.tokens_minted, (n, r)) :: s.token_royalty) tok
            = royLenOf s.token_royalty tok := by
          cases hrw : tok.royalty_id with
          | none =>
              unfold royLenOf
              rw [hrw]
              rfl
          | some rid =>
              have hlt := hrid tid tok hlk rid hrw
              unfold royLenOf
              rw [hrw]
              show ((if s.tokens_minted = rid then some (n, r)
                  else alookup s.token_royalty rid).map
                    (fun pr => pr.2.split_between.length)).getD 0
                = ((alookup s.token_royalty rid).map
                    (fun pr => pr.2.split_between.length)).getD 0
              rw [if_neg (by omega)]
        omega

lemma setSplitLoop_payoutLenInv (caller : String) (splits : SplitOwners) (ids : List Nat) :
    ∀ s s2, payoutLenInv s → setSplitLoop caller splits ids s = .ok s2 → payoutLenInv s2 := by
  induction ids with
  | nil =>
      intro s s2 hinv h
      cases StepResult.ok.inj h
      exact hinv
  | cons tid rest ih =>
      intro s s2 hinv h
      simp only [setSplitLoop] at h
      cases htk : alookup s.tokens tid with
      | none =>
          simp only [htk] at h
          exact StepResult.noConfusion h
      | some token =>
          simp only [htk] at h
          by_cases hl : token.is_loaned = true
          · rw [if_pos hl] at h
            exact StepResult.noConfusion h
          rw [if_neg hl] at h
          by_cases hp : ¬ Token.is_pred_owner caller token = true
          · rw [if_pos hp] at h
            exact StepResult.noConfusion h
          rw [if_neg hp] at h
          by_cases hs : token.split_owners.isSome = true
          · rw [if_pos hs] at h
            exact StepResult.noConfusion h
          rw [if_neg hs] at h
          cases hr : token.royalty_id with
          | some rid =>
              simp only [hr] at h
              cases hpr : alookup s.token_royalty rid with
              | none =>
                  simp only [hpr] at h
                  exact StepResult.noConfusion h
              | some pr =>
                  simp only [hpr] at h
                  by_cases hle : MAX_LEN_PAYOUT < splits.split_between.length + pr.2.split_between.length
                  · rw [if_pos hle] at h
                    exact StepResult.noConfusion h
                  rw [if_neg hle] at h
                  refine ih _ _ ?_ h
                  intro tid2 tok2 hlk2
                  simp only [alookup] at hlk2
                  by_cases he : tid = tid2
                  · rw [if_pos he] at hlk2
                    cases Option.some.inj hlk2
                    have hrlx : royLenOf s.token_royalty
                        ⟨token.id, token.owner_id, token.metadata_id, some rid,
                          some splits, token.minter⟩
                        = pr.2.split_between.length := by
                      show ((alookup s.token_royalty rid).map
                          (fun pr => pr.2.split_between.length)).getD 0 = _
                      rw [hpr]
                      rfl
                    have hslx : splitLenOf
                        ⟨token.id, token.owner_id, token.metadata_id, some rid,
                          some splits, token.minter⟩
                        = splits.split_between.length := rfl
                    rw [hrlx, hslx]
                    omega
                  · rw [if_neg he] at hlk2
                    exact hinv tid2 tok2 hlk2
          | none =>
              simp only [hr] at h
              by_cases hle : MAX_LEN_PAYOUT < splits.split_between.length + 0
              · rw [if_pos hle] at h
                exact StepResult.noConfusion h
              rw [if_neg hle] at h
              refine ih _ _ ?_ h
              intro tid2 tok2 hlk2
              simp only [alookup] at hlk2
              by_cases he : tid = tid2
              · rw [if_pos he] at hlk2
                cases Option.some.inj hlk2
                have hrlx : royLenOf s.token_royalty
                    ⟨token.id, token.owner_id, token.metadata_id, none,
                      some splits, token.minter⟩ = 0 := rfl
                have hslx : splitLenOf
                    ⟨token.id, token.owner_id, token.metadata_id, none,
                      some splits, token.minter⟩
                    = splits.split_between.length := rfl
                rw [hrlx, hslx]
                omega
              · rw [if_neg he] at hlk2
                exact hinv tid2 tok2 hlk2

/-- C6: the bound royalty entries + split entries ≤ `MAX_LEN_PAYOUT` is
an invariant of the store: assuming it holds (together with the royalty
keys sitting below the id counter), it still holds for every token after
any successful `nft_batch_mint` and after any successful
`set_split_owners`; the corresponding checks reject any operation that
would exceed the bound, so no stored token ever exceeds it. -/
theorem claim6_payout_len_invariant
    (env : Env) (s s2 : MintbaseStore)
    (hinv : payoutLenInv s)
    (hrid : ∀ tid tok, alookup s.tokens tid = some tok →
        ∀ rid, tok.royalty_id = some rid → rid < s.tokens_minted) :
    (∀ owner md n royalty_args split_owners,
        nft_batch_mint env s owner md n royalty_args split_owners = .ok s2 →
        payoutLenInv s2) ∧
    (∀ token_ids split_between,
        set_split_owners env s token_ids split_between = .ok s2 →
        payoutLenInv s2) := by
  constructor
  · intro owner md n ra so hok
    unfold nft_batch_mint at hok
    by_cases h1 : n = 0
    · rw [if_pos h1] at hok
      exact StepResult.noConfusion hok
    rw [if_neg h1] at hok
    by_cases h2 : 125 < n
    · rw [if_pos h2] at hok
      exact StepResult.noConfusion hok
    rw [if_neg h2] at hok
    by_cases h3 : env.attached_deposit < 1
    · rw [if_pos h3] at hok
      exact StepResult.noConfusion hok
    rw [if_neg h3] at hok
    by_cases h4 : env.predecessor ∉ s.minters
    · rw [if_pos h4] at hok
      exact StepResult.noConfusion hok
    rw [if_neg h4] at hok
    by_cases h5 : MAX_LEN_PAYOUT < mintRoyLen ra + mintSplitLen so
    · rw [if_pos h5] at hok
      exact StepResult.noConfusion hok
    rw [if_neg h5] at hok
    by_cases h6 : coveredStorage env s < storage_cost_to_mint s.storage_costs n md
        (mintRoyLen ra) (mintSplitLen so)
    · rw [if_pos h6] at hok
      exact StepResult.noConfusion hok
    rw [if_neg h6] at hok
    cases ra with
    | none =>
        cases so with
        | none =>
            cases StepResult.ok.inj hok
            apply mintWrites_payoutLenInv _ _ _ _ _ _ _ hinv hrid
            show (0 : Nat) + 0 ≤ MAX_LEN_PAYOUT
            decide
        | some sb =>
            cases hsn : SplitOwners.new sb with
            | error e =>
                simp only [hsn] at hok
                exact StepResult.noConfusion hok
            | ok sp =>
                simp only [hsn] at hok
                cases StepResult.ok.inj hok
                apply mintWrites_payoutLenInv _ _ _ _ _ _ _ hinv hrid
                have hv : sp.split_between.length = sb.length := by
                  rw [splitOwnersNew_ok_val sb sp hsn]
                have h5x : ¬ (MAX_LEN_PAYOUT < 0 + sb.length) := h5
                show (0 : Nat) + sp.split_between.length ≤ MAX_LEN_PAYOUT
                omega
    | some ra2 =>
        cases hrn : Royalty.new ra2 with
        | error e =>
            simp only [hrn] at hok
            exact StepResult.noConfusion hok
        | ok r =>
            simp only [hrn] at hok
            have hvr : r.split_between.length = ra2.split_between.length := by
              rw [royaltyNew_ok_val ra2 r hrn]
            cases so with
            | none =>
                cases StepResult.ok.inj hok
                apply mintWrites_payoutLenInv _ _ _ _ _ _ _ hinv hrid
                have h5x : ¬ (MAX_LEN_PAYOUT < ra2.split_between.length + 1) := h5
                show r.split_between.length + 0 ≤ MAX_LEN_PAYOUT
                omega
            | some sb =>
                cases hsn : SplitOwners.new sb with
                | error e =>
                    simp only [hsn] at hok
                    exact StepResult.noConfusion hok
                | ok sp =>
                    simp only [hsn] at hok
                    cases StepResult.ok.inj hok
                    apply mintWrites_payoutLenInv _ _ _ _ _ _ _ hinv hrid
                    have hv : sp.split_between.length = sb.length := by
                      rw [splitOwnersNew_ok_val sb sp hsn]
                    have h5x : ¬ (MAX_LEN_PAYOUT < ra2.split_between.length + sb.length) := h5
                    show r.split_between.length + sp.split_between.length ≤ MAX_LEN_PAYOUT
                    omega
  · intro ids sb hok
    simp only [set_split_owners] at hok
    by_cases h1 : ids.isEmpty = true
    · rw [if_pos h1] at hok
      exact StepResult.noConfusion hok
    rw [if_neg h1] at hok
    by_cases h2 : sb.length < 2
    · rw [if_pos h2] at hok
      exact StepResult.noConfusion hok
    rw [if_neg h2] at hok
    by_cases h3 : env.attached_deposit < s.storage_costs.common * sb.length * ids.length
    · rw [if_pos h3] at hok
      exact StepResult.noConfusion hok
    rw [if_neg h3] at hok
    cases hsn : SplitOwners.new sb with
    | error e =>
        simp only [hsn] at hok
        exact StepResult.noConfusion hok
    | ok sp =>
        simp only [hsn] at hok
        exact setSplitLoop_payoutLenInv env.predecessor sp ids s s2 hinv hok

theorem claim6_payout_len_invariant_witness :
    (∀ owner md n royalty_args split_owners,
        nft_batch_mint wEnv2 wStore1 owner md n royalty_args split_owners
          = .ok (mintWrites "minter" wStore1 "alice" 10 1 none none) →
        payoutLenInv (mintWrites "minter" wStore1 "alice" 10 1 none none)) ∧
    (∀ token_ids split_between,
        set_split_owners wEnv2 wStore1 token_ids split_between
          = .ok (mintWrites "minter" wStore1 "alice" 10 1 none none) →
        payoutLenInv (mintWrites "minter" wStore1 "alice" 10 1 none none)) :=
  claim6_payout_len_invariant wEnv2 wStore1
    (mintWrites "minter" wStore1 "alice" 10 1 none none)
    (fun tid tok h => by
      have he : wStore1.tokens = [(0, wTok1)] := rfl
      rw [he] at h
      simp only [alookup] at h
      by_cases h0 : (0 : Nat) = tid
      · rw [if_pos h0] at h
        cases Option.some.inj h
        decide
      · rw [if_neg h0] at h
        cases h)
    (fun tid tok h rid hr => by
      have he : wStore1.tokens = [(0, wTok1)] := rfl
      rw [he] at h
      simp only [alookup] at h
      by_cases h0 : (0 : Nat) = tid
      · rw [if_pos h0] at h
        cases Option.some.inj h
        have h2 : (0 : Nat) = rid := Option.some.inj hr
        have h3 : wStore1.tokens_minted = 1 := rfl
        omega
      · rw [if_neg h0] at h
        cases h)

/-- A token with no royalty and no split, owned by alice. -/
def wTok3a : Token := ⟨0, .Account "alice", 0, none, none, "minter"⟩

/-- A token that already carries split data, owned by alice. -/
def wTok3b : Token := ⟨1, .Account "alice", 0, none, some ⟨[("c", 5000), ("d", 5000)]⟩, "minter"⟩

/-- A store holding both tokens. -/
def wStore3 : MintbaseStore :=
  ⟨[(0, wTok3a), (1, wTok3b)], 2, [], [], [("alice", [0, 1])],
   ["minter"], "boss", ⟨1, 1, 1⟩⟩

/-- The state of the persistent structures at the instant
`set_split_owners wEnv3 wStore3 [0, 1] wSbNew` panics on token 1: token 0
has already been rewritten with the new split attached. -/
def wStore3Mid : MintbaseStore :=
  { wStore3 with
    tokens := (0, ⟨0, .Account "alice", 0, none, some ⟨wSbNew⟩, "minter"⟩) :: wStore3.tokens }

/-- C2 counterexample: `set_split_owners` over the token list `[0, 1]`,
where token 1 is already split, fails its validation only after token 0
was written into the tokens map — at the instant of the failure the
persistent structures differ from their pre-call state, so it is false
that all validation completes before any persistent structure is written
(the all-or-nothing behavior is supplied by the host reverting the
transaction, not by write ordering). -/
theorem claim2_validation_interleaved_counterexample :
    set_split_owners wEnv3 wStore3 [0, 1] wSbNew = .err .alreadySplit wStore3Mid ∧
    wStore3Mid ≠ wStore3 := by
  constructor
  · rfl
  · decide

lemma setSplitLoop_err_shape (caller : String) (splits : SplitOwners) (ids : List Nat) :
    ∀ s e s2, setSplitLoop caller splits ids s = .err e s2 →
      e = .noToken ∨ e = .locked ∨ e = .notOwner ∨ e = .alreadySplit ∨
      e = .missingRoyalty ∨ e = .payoutTooLong := by
  induction ids with
  | nil =>
      intro s e s2 h
      exact StepResult.noConfusion h
  | cons tid rest ih =>
      intro s e s2 h
      simp only [setSplitLoop] at h
      cases htk : alookup s.tokens tid with
      | none =>
          simp only [htk] at h
          injection h with h1 h2
          exact Or.inl h1.symm
      | some token =>
          simp only [htk] at h
          by_cases hl : token.is_loaned = true
          · rw [if_pos hl] at h
            injection h with h1 h2
            exact Or.inr (Or.inl h1.symm)
          rw [if_neg hl] at h
          by_cases hp : ¬ Token.is_pred_owner caller token = true
          · rw [if_pos hp] at h
            injection h with h1 h2
            exact Or.inr (Or.inr (Or.inl h1.symm))
          rw [if_neg hp] at h
          by_cases hs : token.split_owners.isSome = true
          · rw [if_pos hs] at h
            injection h with h1 h2
            exact Or.inr (Or.inr (Or.inr (Or.inl h1.symm)))
          rw [if_neg hs] at h
          cases hr : token.royalty_id with
          | some rid =>
              simp only [hr] at h
              cases hpr : alookup s.token_royalty rid with
              | none =>
                  simp only [hpr] at h
                  injection h with h1 h2
                  exact Or.inr (Or.inr (Or.inr (Or.inr (Or.inl h1.symm))))
              | some pr =>
                  simp only [hpr] at h
                  by_cases hle : MAX_LEN_PAYOUT < splits.split_between.length + pr.2.split_between.length
                  · rw [if_pos hle] at h
                    injection h with h1 h2
                    exact Or.inr (Or.inr (Or.inr (Or.inr (Or.inr h1.symm))))
                  rw [if_neg hle] at h
                  exact ih _ _ _ h
          | none =>
              simp only [hr] at h
              by_cases hle : MAX_LEN_PAYOUT < splits.split_between.length + 0
              · rw [if_pos hle] at h
                injection h with h1 h2
                exact Or.inr (Or.inr (Or.inr (Or.inr (Or.inr h1.symm))))
              rw [if_neg hle] at h
              exact ih _ _ _ h

lemma setSplitLoop_single_err (caller : String) (splits : SplitOwners) (tid : Nat)
    (s : MintbaseStore) (e : Err) (s2 : MintbaseStore)
    (h : setSplitLoop caller splits [tid] s = .err e s2) : s2 = s := by
  simp only [setSplitLoop] at h
  cases htk : alookup s.tokens tid with
  | none =>
      simp only [htk] at h
      injection h with h1 h2
      exact h2.symm
  | some token =>
      simp only [htk] at h
      by_cases hl : token.is_loaned = true
      · rw [if_pos hl] at h
        injection h with h1 h2
        exact h2.symm
      rw [if_neg hl] at h
      by_cases hp : ¬ Token.is_pred_owner caller token = true
      · rw [if_pos hp] at h
        injection h with h1 h2
        exact h2.symm
      rw [if_neg hp] at h
      by_cases hs : token.split_owners.isSome = true
      · rw [if_pos hs] at h
        injection h with h1 h2
        exact h2.symm
      rw [if_neg hs] at h
      cases hr : token.royalty_id with
      | some rid =>
          simp only [hr] at h
          cases hpr : alookup s.token_royalty rid with
          | none =>
              simp only [hpr] at h
              injection h with h1 h2
              exact h2.symm
          | some pr =>
              simp only [hpr] at h
              by_cases hle : MAX_LEN_PAYOUT < splits.split_between.length + pr.2.split_between.length
              · rw [if_pos hle] at h
                injection h with h1 h2
                exact h2.symm
              rw [if_neg hle] at h
              exact StepResult.noConfusion h
      | none =>
          simp only [hr] at h
          by_cases hle : MAX_LEN_PAYOUT < splits.split_between.length + 0
          · rw [if_pos hle] at h
            injection h with h1 h2
            exact h2.symm
          rw [if_neg hle] at h
          exact StepResult.noConfusion h

/-- C2 (amended): a failing validation leaves every persistent structure
exactly as before the call whenever the failure precedes the write phase —
which is always the case for `nft_batch_mint` (every panic there carries
the pre-call state), for every argument-level failure of
`set_split_owners` (empty id list, split map shorter than two entries,
insufficient deposit, invalid split map), and for `set_split_owners` over
a single token. Over several tokens, `set_split_owners` interleaves
per-token validation with writes, so a failure on a later token occurs
after earlier tokens were written (see the counterexample); the
all-or-nothing behavior there is supplied by the host reverting the
transaction on panic. -/
theorem claim2_validate_then_write_amended (env : Env) (s : MintbaseStore) :
    (∀ owner md n royalty_args split_owners e s2,
        nft_batch_mint env s owner md n royalty_args split_owners = .err e s2 → s2 = s) ∧
    (∀ token_ids split_between e s2,
        set_split_owners env s token_ids split_between = .err e s2 →
        (e = .emptyTokenIds ∨ e = .invalidSplit ∨ (∃ m, e = .insufficientFunds m)) →
        s2 = s) ∧
    (∀ tid split_between e s2,
        set_split_owners env s [tid] split_between = .err e s2 → s2 = s) := by
  refine ⟨?_, ?_, ?_⟩
  · intro owner md n ra so e s2 h
    unfold nft_batch_mint at h
    repeat' split at h
    all_goals first
      | exact StepResult.noConfusion h
      | (injection h with h1 h2
         exact h2.symm)
  · intro ids sb e s2 h hd
    simp only [set_split_owners] at h
    by_cases h1 : ids.isEmpty = true
    · rw [if_pos h1] at h
      injection h with h1x h2x
      exact h2x.symm
    rw [if_neg h1] at h
    by_cases h2 : sb.length < 2
    · rw [if_pos h2] at h
      injection h with h1x h2x
      exact h2x.symm
    rw [if_neg h2] at h
    by_cases h3 : env.attached_deposit < s.storage_costs.common * sb.length * ids.length
    · rw [if_pos h3] at h
      injection h with h1x h2x
      exact h2x.symm
    rw [if_neg h3] at h
    cases hsn : SplitOwners.new sb with
    | error e2 =>
        rw [hsn] at h
        injection h with h1x h2x
        exact h2x.symm
    | ok sp =>
        rw [hsn] at h
        have hshape := setSplitLoop_err_shape env.predecessor sp ids s e s2 h
        rcases hd with rfl | rfl | ⟨m, rfl⟩ <;>
          rcases hshape with h5 | h5 | h5 | h5 | h5 | h5 <;> cases h5
  · intro tid sb e s2 h
    simp only [set_split_owners] at h
    by_cases h1 : ([tid] : List Nat).isEmpty = true
    · rw [if_pos h1] at h
      injection h with h1x h2x
      exact h2x.symm
    rw [if_neg h1] at h
    by_cases h2 : sb.length < 2
    · rw [if_pos h2] at h
      injection h with h1x h2x
      exact h2x.symm
    rw [if_neg h2] at h
    by_cases h3 : env.attached_deposit < s.storage_costs.common * sb.length * ([tid] : List Nat).length
    · rw [if_pos h3] at h
      injection h with h1x h2x
      exact h2x.symm
    rw [if_neg h3] at h
    cases hsn : SplitOwners.new sb with
    | error e2 =>
        rw [hsn] at h
        injection h with h1x h2x
        exact h2x.symm
    | ok sp =>
        rw [hsn] at h
        exact setSplitLoop_single_err env.predecessor sp tid s e s2 h

theorem claim2_validate_then_write_amended_witness :
    (∀ owner md n royalty_args split_owners e s2,
        nft_batch_mint wEnv3 wStore3 owner md n royalty_args split_owners = .err e s2 →
        s2 = wStore3) ∧
    (∀ token_ids split_between e s2,
        set_split_owners wEnv3 wStore3 token_ids split_between = .err e s2 →
        (e = .emptyTokenIds ∨ e = .invalidSplit ∨ (∃ m, e = .insufficientFunds m)) →
        s2 = wStore3) ∧
    (∀ tid split_between e s2,
        set_split_owners wEnv3 wStore3 [tid] split_between = .err e s2 → s2 = wStore3) :=
  claim2_validate_then_write_amended wEnv3 wStore3
